import Mathlib

/-!
Shallow embedding of the StarHash coordinate/word codec from
src/src/starhash/core.py, together with theorems settling the frozen
claims about its specification.

Modelling conventions.

The two external collaborators are abstracted at their interface
boundary, exactly as the design document prescribes:

* the HEALPix grid provider contributes only the pixel count
  (healpy.nside2npix, which is 12 * nside**2); ang2pix/pix2ang are the
  external discretisation, so encode is studied from the cell index on
  and decode is studied up to the cell index handed to pix2ang;

* the FF3 format-preserving cipher is an opaque pair of functions.
  A fixed-width decimal string of width W is identified with its
  integer value: for idx < 10 ^ W the Python pipeline
  int(cipher.encrypt(str(idx).zfill(W))) is modelled as enc idx for a
  parameter enc : ℕ → ℕ, and symmetrically for decrypt.  The zfill /
  str / int conversions are mutually inverse on that domain, so nothing
  is lost; values ≥ 10 ^ W (which Python hands to the cipher as longer
  strings, since zfill never truncates) are simply further inputs of
  the abstract function.

Identifiers are studied as their word sequences; the separator join
(String.intercalate) and split performed by the source around the word
loop are provided as wrappers.
-/

namespace Starhash

/-- Python len(str(n)) for a natural number n: its number of decimal
digits, with one digit for 0. -/
def decimalLen (n : ℕ) : ℕ := if n = 0 then 1 else (Nat.digits 10 n).length

/-- healpy.nside2npix: the total HEALPix pixel count 12 * nside * nside. -/
def nside2npix (nside : ℕ) : ℕ := 12 * nside * nside

/-- The codec state assembled by StarHash.__init__ and load_wordlist:
the grid resolution and pixel count, the words-per-identifier count
k_words, and the loaded vocabulary.  The cipher itself is external and
passed to the operations as a function parameter. -/
structure StarHash where
  healpix_nside : ℕ
  npix : ℕ
  k_words : ℕ
  wordlist : List String
  deriving DecidableEq, Repr

/-- self.num_words = len(self.wordlist), as set by load_wordlist. -/
def StarHash.num_words (sh : StarHash) : ℕ := sh.wordlist.length

/-- self.padding_length = len(str(self.npix)), as set by __init__. -/
def StarHash.padding_length (sh : StarHash) : ℕ := decimalLen sh.npix

/-- The construction-time error of core.py: IncompleteHEALPixCoverageError. -/
inductive ConstructError where
  | incompleteHEALPixCoverage
  deriving DecidableEq, Repr

/-- The coverage factor num_words ** k_words / npix computed by
load_wordlist, modelled as an exact rational (Python evaluates the
quotient in double precision; for a pixel count below 2 ^ 53 the
comparison against 1 agrees with the exact one). -/
def coverage (N k P : ℕ) : ℚ := (N ^ k : ℚ) / (P : ℚ)

/-- Executable form of the construction-time test coverage < 1.  For
P > 0 it is equivalent to the rational comparison; see
coverageBelow1_iff. -/
def coverageBelow1 (N k P : ℕ) : Bool := N ^ k < P

/-- StarHash.__init__ followed by load_wordlist, at the level of the
state used by the codec: compute npix from nside, load the given word
list, and raise IncompleteHEALPixCoverageError when the coverage
factor is below 1.  No other validation of the word list happens in
the source. -/
def mkStarHash (nside k : ℕ) (wl : List String) : Except ConstructError StarHash :=
  let npix := nside2npix nside
  if coverageBelow1 wl.length k npix then .error .incompleteHEALPixCoverage
  else .ok { healpix_nside := nside, npix := npix, k_words := k, wordlist := wl }

/-- The word-emission loop of coordinate_to_words: k_words iterations of
words.append(self.wordlist[temp % self.num_words]); temp //= self.num_words.
none models the loop failing on the list access (Python IndexError, or the
ZeroDivisionError of temp % 0 when the vocabulary is empty). -/
def wordLoop (wl : List String) (N : ℕ) : ℕ → ℕ → Option (List String)
  | 0, _ => some []
  | k + 1, temp =>
    match wl[temp % N]?, wordLoop wl N k (temp / N) with
    | some w, some ws => some (w :: ws)
    | _, _ => none

/-- coordinate_to_words from the cell index produced by ang2pix on:
idx is padded to padding_length, encrypted (the parameter enc models
int(self.cipher.encrypt(str(idx).zfill(self.padding_length)))), and the
encrypted integer is decomposed into k_words vocabulary words, least
significant base-num_words digit first. -/
def coordinate_to_words (sh : StarHash) (enc : ℕ → ℕ) (idx : ℕ) : Option (List String) :=
  wordLoop sh.wordlist sh.num_words sh.k_words (enc idx)

/-- WORD_SEPARATOR of core.py. -/
def WORD_SEPARATOR : String := "-"

/-- The identifier string actually returned by coordinate_to_words:
self.word_separator.join(words). -/
def coordinate_to_name (sh : StarHash) (enc : ℕ → ℕ) (idx : ℕ) : Option String :=
  (coordinate_to_words sh enc idx).map (fun ws => String.intercalate WORD_SEPARATOR ws)

/-- The call-time failures of words_to_coordinate in core.py.  valueError
is Python's builtin ValueError as raised by list.index on a missing
entry (its message names the offending word); core.py defines no
dedicated unknown-word exception class.  invalidHEALPixIndex is
InvalidHEALPixIndexError. -/
inductive DecodeError where
  | valueError (w : String)
  | invalidHEALPixIndex
  deriving DecidableEq, Repr

/-- Python list.index: the position of the first occurrence of w, or a
ValueError naming w when it is absent. -/
def listIndex (wl : List String) (w : String) : Except DecodeError ℕ :=
  match wl with
  | [] => .error (.valueError w)
  | v :: vs => if v = w then .ok 0 else (listIndex vs w).map (· + 1)

/-- The comprehension [self.wordlist.index(w) for w in input_word_str.split(...)]:
looks words up left to right, failing at the first absent word. -/
def lookupIndices (wl : List String) : List String → Except DecodeError (List ℕ)
  | [] => .ok []
  | w :: ws =>
    match listIndex wl w with
    | .error e => .error e
    | .ok i => (lookupIndices wl ws).map (fun is => i :: is)

/-- Helper for recompose: the partial sums of the enumerate-comprehension
starting at position i. -/
def recomposeFrom (N : ℕ) : ℕ → List ℕ → ℕ
  | _, [] => 0
  | i, d :: ds => d * N ^ i + recomposeFrom N (i + 1) ds

/-- idx_encrypted = sum(word_idx * (self.num_words**i) for i, word_idx in
enumerate(indices)): base-N positional recomposition, least significant
digit first. -/
def recompose (N : ℕ) (ds : List ℕ) : ℕ := recomposeFrom N 0 ds

/-- words_to_coordinate up to the cell index handed to pix2ang: look the
words up, recompose the encrypted integer, re-pad and decrypt it (the
parameter dec models int(self.cipher.decrypt(str(e).zfill(self.padding_length)));
zfill never truncates, so the padded string is determined by the value e),
and reject the decrypted index only when idx > self.npix. -/
def words_to_coordinate (sh : StarHash) (dec : ℕ → ℕ) (ws : List String) : Except DecodeError ℕ :=
  match lookupIndices sh.wordlist ws with
  | .error e => .error e
  | .ok indices =>
    let idx := dec (recompose sh.num_words indices)
    if idx > sh.npix then .error .invalidHEALPixIndex else .ok idx

/-- words_to_coordinate on the raw identifier string: the source first
splits the input on the word separator. -/
def name_to_coordinate (sh : StarHash) (dec : ℕ → ℕ) (s : String) : Except DecodeError ℕ :=
  words_to_coordinate sh dec (s.splitOn WORD_SEPARATOR)

/-- The k base-N digits inspected by the word loop, least significant
first. -/
def kDigits (N : ℕ) : ℕ → ℕ → List ℕ
  | 0, _ => []
  | k + 1, temp => temp % N :: kDigits N k (temp / N)

deriving instance DecidableEq for Except

/-- Concrete test vocabulary of four distinct words. -/
def wlA : List String := ["w0", "w1", "w2", "w3"]

/-- The codec state produced by mkStarHash 1 2 wlA: the smallest HEALPix
grid (nside 1, twelve cells), two words per identifier, coverage
4 ^ 2 / 12 ≥ 1. -/
def shA : StarHash := { healpix_nside := 1, npix := 12, k_words := 2, wordlist := wlA }

/-- A bijection of the two-digit decimal strings (values 0..99): the
transposition exchanging 00 and 99.  It is its own inverse. -/
def swap99 (x : ℕ) : ℕ := if x = 0 then 99 else if x = 99 then 0 else x

/-- A bijection of the two-digit decimal strings: the three-cycle
sending 00 to 16, 16 to 01 and 01 to 00. -/
def cyc3 (x : ℕ) : ℕ := if x = 0 then 16 else if x = 16 then 1 else if x = 1 then 0 else x

/-- The inverse of cyc3. -/
def cyc3inv (x : ℕ) : ℕ := if x = 16 then 0 else if x = 1 then 16 else if x = 0 then 1 else x

/-- A bijection of the two-digit decimal strings: the transposition
exchanging 00 and 12.  It is its own inverse. -/
def swap12 (x : ℕ) : ℕ := if x = 0 then 12 else if x = 12 then 0 else x

/-- A bijection of ℕ used as an abstract decrypt: the transposition
exchanging 255 and 5. -/
def dec255 (x : ℕ) : ℕ := if x = 255 then 5 else if x = 5 then 255 else x

/-- A natural number is below 10 to its own decimal length. -/
theorem lt_pow_decimalLen (n : ℕ) : n < 10 ^ decimalLen n := by
  unfold decimalLen
  by_cases h : n = 0
  · simp [h]
  · rw [if_neg h]
    exact Nat.lt_base_pow_length_digits (by norm_num)

/-- Shifting the enumeration start of the positional sum multiplies it
by the base. -/
theorem recomposeFrom_succ (N : ℕ) (ds : List ℕ) :
    ∀ i, recomposeFrom N (i + 1) ds = N * recomposeFrom N i ds := by
  induction ds with
  | nil => intro i; simp [recomposeFrom]
  | cons d ds ih =>
    intro i
    simp only [recomposeFrom, ih (i + 1)]
    ring

/-- Horner step for the positional recomposition. -/
theorem recompose_cons (N d : ℕ) (ds : List ℕ) :
    recompose N (d :: ds) = d + N * recompose N ds := by
  simp only [recompose, recomposeFrom, recomposeFrom_succ, pow_zero, mul_one]

/-- Recomposition of a one-digit list. -/
theorem recompose_single (N d : ℕ) : recompose N [d] = d := by
  simp [recompose_cons, recompose, recomposeFrom]

/-- Zero digits contribute nothing to the recomposition. -/
theorem recompose_replicate_zero (N : ℕ) : ∀ m, recompose N (List.replicate m 0) = 0 := by
  intro m
  induction m with
  | zero => simp [recompose, recomposeFrom]
  | succ m ih => simp [List.replicate_succ, recompose_cons, ih]

/-- The word loop inspects exactly k digits. -/
theorem kDigits_length (N : ℕ) : ∀ k t, (kDigits N k t).length = k := by
  intro k
  induction k with
  | zero => intro t; rfl
  | succ k ih => intro t; simp [kDigits, ih]

/-- Recomposing the k least-significant base-N digits of t recovers t
modulo N ^ k. -/
theorem recompose_kDigits (N : ℕ) :
    ∀ k t, recompose N (kDigits N k t) = t % N ^ k := by
  intro k
  induction k with
  | zero => intro t; simp [kDigits, recompose, recomposeFrom, Nat.mod_one]
  | succ k ih =>
    intro t
    have hdvd : N ∣ N ^ (k + 1) := dvd_pow_self N (Nat.succ_ne_zero k)
    have h1 : t / N % N ^ k = t % N ^ (k + 1) / N := by
      rw [← Nat.mod_mul_right_div_self, ← pow_succ']
    have h2 : t % N = t % N ^ (k + 1) % N := (Nat.mod_mod_of_dvd t hdvd).symm
    rw [kDigits, recompose_cons, ih, h1, h2, Nat.mod_add_div]

/-- On a nonempty vocabulary the word loop always succeeds and emits
exactly k words: every index temp % length is in bounds. -/
theorem wordLoop_total (wl : List String) (hne : wl ≠ []) :
    ∀ k t, ∃ ws, wordLoop wl wl.length k t = some ws ∧ ws.length = k := by
  intro k
  induction k with
  | zero => intro t; exact ⟨[], rfl, rfl⟩
  | succ k ih =>
    intro t
    obtain ⟨ws, hws, hlen⟩ := ih (t / wl.length)
    have hpos : 0 < wl.length := List.length_pos.mpr hne
    have hlt : t % wl.length < wl.length := Nat.mod_lt t hpos
    refine ⟨wl.get ⟨t % wl.length, hlt⟩ :: ws, ?_, by simp [hlen]⟩
    simp only [wordLoop, List.getElem?_eq_getElem hlt, List.get_eq_getElem, hws]

/-- Python list.index recovers the position of an element of a
duplicate-free list. -/
theorem listIndex_get (wl : List String) (hnd : wl.Nodup) :
    ∀ d (hd : d < wl.length), listIndex wl (wl.get ⟨d, hd⟩) = .ok d := by
  induction wl with
  | nil => intro d hd; exact absurd hd (by simp)
  | cons v vs ih =>
    intro d hd
    match d with
    | 0 => simp [listIndex]
    | d + 1 =>
      have h1 : v ∉ vs := (List.nodup_cons.mp hnd).1
      have h2 : vs.Nodup := (List.nodup_cons.mp hnd).2
      have hd2 : d < vs.length := Nat.lt_of_succ_lt_succ (by simpa using hd)
      have hget : (v :: vs).get ⟨d + 1, hd⟩ = vs.get ⟨d, hd2⟩ := rfl
      have hvne : ¬ v = vs.get ⟨d, hd2⟩ := by
        intro h
        exact h1 (h ▸ List.get_mem vs d hd2)
      rw [hget]
      simp only [listIndex, if_neg hvne, ih h2 d hd2]
      rfl

/-- A word absent from the vocabulary makes list.index raise the
ValueError naming that word. -/
theorem listIndex_not_mem (wl : List String) (w : String) (h : w ∉ wl) :
    listIndex wl w = .error (.valueError w) := by
  induction wl with
  | nil => rfl
  | cons v vs ih =>
    have hvw : ¬ v = w := fun hv => h (hv ▸ List.mem_cons_self v vs)
    have hw : w ∉ vs := fun hv => h (List.mem_cons_of_mem v hv)
    simp only [listIndex, if_neg hvw, ih hw]
    rfl

/-- A word present in the vocabulary is resolved by list.index to some
position. -/
theorem listIndex_mem (wl : List String) (w : String) (h : w ∈ wl) :
    ∃ d, listIndex wl w = .ok d := by
  induction wl with
  | nil => exact absurd h (by simp)
  | cons v vs ih =>
    by_cases hv : v = w
    · exact ⟨0, by simp [listIndex, hv]⟩
    · have hw : w ∈ vs := by
        rcases List.mem_cons.mp h with h1 | h1
        · exact absurd h1.symm hv
        · exact h1
      obtain ⟨d, hd⟩ := ih hw
      exact ⟨d + 1, by simp [listIndex, if_neg hv, hd]; rfl⟩

/-- On a nonempty duplicate-free vocabulary, the words emitted by the
word loop succeed, number k, and look back up to exactly the k
least-significant base-N digits of the encrypted integer. -/
theorem wordLoop_lookup (wl : List String) (hnd : wl.Nodup) (hne : wl ≠ []) :
    ∀ k t, ∃ ws, wordLoop wl wl.length k t = some ws ∧ ws.length = k ∧
      lookupIndices wl ws = .ok (kDigits wl.length k t) := by
  intro k
  induction k with
  | zero => intro t; exact ⟨[], rfl, rfl, rfl⟩
  | succ k ih =>
    intro t
    obtain ⟨ws, hws, hlen, hlk⟩ := ih (t / wl.length)
    have hpos : 0 < wl.length := List.length_pos.mpr hne
    have hlt : t % wl.length < wl.length := Nat.mod_lt t hpos
    refine ⟨wl.get ⟨t % wl.length, hlt⟩ :: ws, ?_, by simp [hlen], ?_⟩
    · simp only [wordLoop, List.getElem?_eq_getElem hlt, List.get_eq_getElem, hws]
    · simp only [lookupIndices, listIndex_get wl hnd _ hlt, hlk, kDigits]
      rfl

/-- When some word of the input is missing from the vocabulary the
left-to-right lookup fails with the ValueError of the first such word. -/
theorem lookupIndices_missing (wl : List String) :
    ∀ ws : List String, (∃ w ∈ ws, w ∉ wl) →
      ∃ w ∈ ws, w ∉ wl ∧ lookupIndices wl ws = .error (.valueError w) := by
  intro ws
  induction ws with
  | nil => rintro ⟨w, hw, _⟩; exact absurd hw (by simp)
  | cons v vs ih =>
    intro h
    by_cases hv : v ∈ wl
    · obtain ⟨d, hd⟩ := listIndex_mem wl v hv
      have h2 : ∃ w ∈ vs, w ∉ wl := by
        obtain ⟨w, hw, hwn⟩ := h
        rcases List.mem_cons.mp hw with h1 | h1
        · exact absurd hv (h1 ▸ hwn)
        · exact ⟨w, h1, hwn⟩
      obtain ⟨w, hw, hwn, hlk⟩ := ih h2
      exact ⟨w, List.mem_cons_of_mem v hw, hwn,
        by simp [lookupIndices, hd, hlk, Except.map]⟩
    · exact ⟨v, List.mem_cons_self v vs, hv,
        by simp [lookupIndices, listIndex_not_mem wl v hv]⟩

/-- The executable construction-time test agrees with the exact rational
comparison coverage < 1 performed by load_wordlist, for any positive
pixel count. -/
theorem coverageBelow1_iff (N k P : ℕ) (hP : 0 < P) :
    coverageBelow1 N k P = true ↔ coverage N k P < 1 := by
  unfold coverageBelow1 coverage
  rw [decide_eq_true_eq, div_lt_one (by exact_mod_cast hP)]
  constructor
  · intro h; exact_mod_cast h
  · intro h; exact_mod_cast h

/-- Construction fails with IncompleteHEALPixCoverageError exactly when
the word space is smaller than the pixel count. -/
theorem mkStarHash_error_iff (nside k : ℕ) (wl : List String) :
    mkStarHash nside k wl = .error .incompleteHEALPixCoverage ↔
      wl.length ^ k < nside2npix nside := by
  unfold mkStarHash coverageBelow1
  by_cases h : wl.length ^ k < nside2npix nside
  · simp [h]
  · simp [h]

/-- Construction succeeds, with the expected state, exactly when the
word space covers the pixel count. -/
theorem mkStarHash_ok (nside k : ℕ) (wl : List String)
    (hcov : nside2npix nside ≤ wl.length ^ k) :
    mkStarHash nside k wl =
      .ok { healpix_nside := nside, npix := nside2npix nside,
            k_words := k, wordlist := wl } := by
  unfold mkStarHash coverageBelow1
  simp [Nat.not_lt.mpr hcov]

/-- A successfully constructed codec carries exactly the state written
by __init__ and load_wordlist. -/
theorem mkStarHash_ok_inv (nside k : ℕ) (wl : List String) (sh : StarHash)
    (h : mkStarHash nside k wl = .ok sh) :
    sh = { healpix_nside := nside, npix := nside2npix nside,
           k_words := k, wordlist := wl } ∧
      nside2npix nside ≤ wl.length ^ k := by
  unfold mkStarHash coverageBelow1 at h
  by_cases hc : wl.length ^ k < nside2npix nside
  · simp [hc] at h
  · simp [hc] at h
    exact ⟨h.symm, Nat.not_lt.mp hc⟩

/-- Round-trip engine: on a duplicate-free vocabulary, with decrypt
inverting encrypt on the padded-width domain, any cell index whose
encrypted value fits in the k-digit base-N word space is recovered
exactly by decoding its encoding. -/
theorem decode_encode_core (sh : StarHash) (enc dec : ℕ → ℕ)
    (hnd : sh.wordlist.Nodup)
    (hdec : ∀ x, x < 10 ^ sh.padding_length → dec (enc x) = x)
    (i : ℕ) (hi : i < sh.npix)
    (hov : enc i < sh.num_words ^ sh.k_words) :
    ∃ ws, coordinate_to_words sh enc i = some ws ∧
      words_to_coordinate sh dec ws = .ok i := by
  have hipad : i < 10 ^ sh.padding_length :=
    lt_trans hi (lt_pow_decimalLen sh.npix)
  have hdi : dec (enc i) = i := hdec i hipad
  have hguard : ¬ i > sh.npix := not_lt.mpr (le_of_lt hi)
  rcases Nat.eq_zero_or_pos sh.num_words with hN | hN
  · have hk : sh.k_words = 0 := by
      by_contra hk
      rw [hN, zero_pow hk] at hov
      exact Nat.not_lt_zero _ hov
    have henc : enc i = 0 := by
      rw [hk, pow_zero] at hov
      omega
    refine ⟨[], ?_, ?_⟩
    · simp [coordinate_to_words, hk, wordLoop]
    · have hrec : dec (recompose sh.num_words []) = i := by
        have h0 : recompose sh.num_words [] = 0 := rfl
        rw [h0, ← henc, hdi]
      simp only [words_to_coordinate, lookupIndices, hrec, if_neg hguard]
  · have hne : sh.wordlist ≠ [] := by
      intro h
      rw [StarHash.num_words, h] at hN
      exact absurd hN (by simp)
    obtain ⟨ws, hws, hlen, hlk⟩ :=
      wordLoop_lookup sh.wordlist hnd hne sh.k_words (enc i)
    refine ⟨ws, hws, ?_⟩
    have hrec : dec (recompose sh.num_words (kDigits sh.wordlist.length sh.k_words (enc i))) = i := by
      have h1 : recompose sh.num_words (kDigits sh.wordlist.length sh.k_words (enc i)) =
          enc i % sh.wordlist.length ^ sh.k_words :=
        recompose_kDigits sh.wordlist.length sh.k_words (enc i)
      have hov2 : enc i < sh.wordlist.length ^ sh.k_words := hov
      rw [h1, Nat.mod_eq_of_lt hov2, hdi]
    simp only [words_to_coordinate, hlk, hrec, if_neg hguard]

/-- A HEALPix pixel count 12 * nside * nside is divisible by 3, hence
never a power of 10. -/
theorem nside2npix_ne_pow10 (n m : ℕ) : nside2npix n ≠ 10 ^ m := by
  intro h
  have h3 : 3 ∣ nside2npix n := ⟨4 * n * n, by unfold nside2npix; ring⟩
  rw [h] at h3
  have h1 : 10 ^ m % 3 = 1 := by
    rw [Nat.pow_mod]
    simp
  omega

/-- For p ≥ 2 that is not a power of ten, p and p - 1 have the same
number of decimal digits. -/
theorem decimalLen_pred (p : ℕ) (hp : 2 ≤ p) (hnp : ∀ m, p ≠ 10 ^ m) :
    decimalLen p = (Nat.digits 10 (p - 1)).length := by
  have hp0 : p ≠ 0 := by omega
  have hp1 : p - 1 ≠ 0 := by omega
  rw [decimalLen, if_neg hp0, Nat.digits_len 10 p (by norm_num) hp0,
      Nat.digits_len 10 (p - 1) (by norm_num) hp1]
  have h1 : Nat.log 10 (p - 1) ≤ Nat.log 10 p := Nat.log_mono_right (by omega)
  have h2 : Nat.log 10 p ≤ Nat.log 10 (p - 1) := by
    have hle : 10 ^ Nat.log 10 p ≤ p := Nat.pow_log_le_self 10 hp0
    have hne : 10 ^ Nat.log 10 p ≠ p := fun h => hnp _ h.symm
    have hle1 : 10 ^ Nat.log 10 p ≤ p - 1 := by omega
    exact (Nat.pow_le_iff_le_log (by norm_num) hp1).mp hle1
  omega

/-- Every constructible pixel count is at least the 12 cells of the
coarsest grid. -/
theorem nside2npix_ge_12 (n : ℕ) (hn : 0 < n) : 12 ≤ nside2npix n := by
  unfold nside2npix
  nlinarith

/-- A vocabulary with four words in a grid of twelve cells and two words
per identifier: duplicate-free vocabulary with a duplicated variant. -/
def wlDup : List String := ["w0", "w0", "w1", "w2"]

/-- C1, counterexample to the claim as stated.  On the codec
mkStarHash 1 2 wlA (P = 12 cells, N = 4 words, k = 2, padding width 2,
coverage 16/12 ≥ 1) take the numeral transform swap99, a bijection of
the two-digit decimal strings that is its own inverse.  Encoding cell
index 0 encrypts it to 99, whose two least-significant base-4 digits
drop the high bits (99 mod 16 = 3), so decoding the produced identifier
["w3", "w0"] recovers cell index 3, not 0: the claimed round trip fails
even though encrypt and decrypt are mutually inverse bijections of the
padding-width domain. -/
theorem C1_counterexample :
    mkStarHash 1 2 wlA = .ok shA ∧
    shA.padding_length = 2 ∧
    (∀ x, x < 10 ^ 2 → swap99 x < 10 ^ 2) ∧
    (∀ x, x < 10 ^ 2 → swap99 (swap99 x) = x) ∧
    (0 : ℕ) < shA.npix ∧
    coordinate_to_words shA swap99 0 = some ["w3", "w0"] ∧
    words_to_coordinate shA swap99 ["w3", "w0"] = .ok 3 ∧
    (3 : ℕ) ≠ 0 := by
  refine ⟨by decide, ?_, by decide, by decide, by decide, by decide, by decide, by decide⟩
  show decimalLen 12 = 2
  simp [decimalLen]

/-- C1 (amended): round-trip at the cell-index level.  For every cell
index i in [0, P-1], assuming decrypt inverts encrypt on the
fixed-width decimal domain of the codec's padding width, and assuming
additionally that the vocabulary is duplicate-free and that the
encrypted value of i lies below num_words ^ k_words (automatic whenever
10 ^ padding_length ≤ num_words ^ k_words, but not in general, as the
counterexample shows), decoding the k-word identifier produced by
encoding i recovers exactly the cell index i. -/
theorem C1_roundtrip (sh : StarHash) (enc dec : ℕ → ℕ)
    (hnd : sh.wordlist.Nodup)
    (hdec : ∀ x, x < 10 ^ sh.padding_length → dec (enc x) = x)
    (i : ℕ) (hi : i < sh.npix)
    (hov : enc i < sh.num_words ^ sh.k_words) :
    ∃ ws, coordinate_to_words sh enc i = some ws ∧
      words_to_coordinate sh dec ws = .ok i :=
  decode_encode_core sh enc dec hnd hdec i hi hov

/-- Witness for C1 at the codec mkStarHash 1 2 wlA, the identity
transform and cell index 5. -/
theorem C1_roundtrip_witness :
    wlA.Nodup ∧ (5 : ℕ) < shA.npix ∧
    (5 : ℕ) < shA.num_words ^ shA.k_words ∧
    ∃ ws, coordinate_to_words shA id 5 = some ws ∧
      words_to_coordinate shA id ws = .ok 5 :=
  ⟨by decide, by decide, by decide,
    C1_roundtrip shA id id (by decide) (fun x _ => rfl) 5 (by decide) (by decide)⟩

/-- C2, counterexample to the claim as stated.  On the codec
mkStarHash 1 2 wlA take the numeral transform cyc3 (a bijection of the
two-digit decimal strings, with inverse cyc3inv).  Cell indices 0 and 1
encrypt to 16 and 0, which agree modulo the word space 4 ^ 2 = 16, so
the two distinct valid cells produce the identical identifier
"w0-w0". -/
theorem C2_counterexample :
    mkStarHash 1 2 wlA = .ok shA ∧
    (∀ x, x < 10 ^ 2 →
      cyc3 x < 10 ^ 2 ∧ cyc3inv x < 10 ^ 2 ∧
      cyc3inv (cyc3 x) = x ∧ cyc3 (cyc3inv x) = x) ∧
    (0 : ℕ) < shA.npix ∧ (1 : ℕ) < shA.npix ∧ (0 : ℕ) ≠ 1 ∧
    coordinate_to_name shA cyc3 0 = some ("w0-w0") ∧
    coordinate_to_name shA cyc3 1 = some ("w0-w0") := by decide

/-- C2 (amended): injectivity of encoding.  For distinct cell indices
i ≠ j in [0, P-1] on a successfully constructed codec, assuming the
numeral transform is a bijection of the padding-width domain, that the
vocabulary is duplicate-free, and that both encrypted values lie below
num_words ^ k_words (automatic whenever 10 ^ padding_length ≤
num_words ^ k_words, but not in general, as the counterexample shows),
the produced k-word identifiers differ. -/
theorem C2_injective (sh : StarHash) (enc dec : ℕ → ℕ)
    (hnd : sh.wordlist.Nodup)
    (hdec : ∀ x, x < 10 ^ sh.padding_length → dec (enc x) = x)
    (i j : ℕ) (hi : i < sh.npix) (hj : j < sh.npix) (hne : i ≠ j)
    (hovi : enc i < sh.num_words ^ sh.k_words)
    (hovj : enc j < sh.num_words ^ sh.k_words) :
    coordinate_to_words sh enc i ≠ coordinate_to_words sh enc j := by
  intro heq
  obtain ⟨ws, hwi, hdi⟩ := decode_encode_core sh enc dec hnd hdec i hi hovi
  obtain ⟨ws2, hwj, hdj⟩ := decode_encode_core sh enc dec hnd hdec j hj hovj
  rw [hwi, hwj] at heq
  have hws : ws = ws2 := Option.some_injective _ heq
  rw [← hws] at hdj
  rw [hdi] at hdj
  exact hne (Except.ok.inj hdj)

/-- Witness for C2 at the codec mkStarHash 1 2 wlA, the identity
transform and the distinct cell indices 5 and 6. -/
theorem C2_injective_witness :
    coordinate_to_words shA id 5 ≠ coordinate_to_words shA id 6 :=
  C2_injective shA id id (by decide) (fun x _ => rfl) 5 6
    (by decide) (by decide) (by decide) (by decide) (by decide)

/-- C3: on every codec the construction can actually produce, the
padding width len(str(npix)) set by __init__ equals the number of
decimal digits of npix - 1, the largest valid cell index: a HEALPix
pixel count 12 * nside ** 2 is divisible by 3 and therefore never a
power of ten, the only case in which the two widths would differ (the
spec's illustrative P = 100 is not a constructible pixel count, and on
it the source formula would give width 3, not 2). -/
theorem C3_padding_width (nside k : ℕ) (wl : List String) (sh : StarHash)
    (hn : 0 < nside) (hmk : mkStarHash nside k wl = .ok sh) :
    sh.padding_length = (Nat.digits 10 (sh.npix - 1)).length := by
  obtain ⟨hsh, -⟩ := mkStarHash_ok_inv nside k wl sh hmk
  subst hsh
  exact decimalLen_pred (nside2npix nside)
    (le_trans (by norm_num) (nside2npix_ge_12 nside hn))
    (nside2npix_ne_pow10 nside)

/-- Witness for C3 on the codec mkStarHash 1 2 wlA: padding width 2,
and 11 = npix - 1 indeed has two decimal digits. -/
theorem C3_padding_width_witness :
    (0 : ℕ) < 1 ∧ mkStarHash 1 2 wlA = .ok shA ∧
    shA.padding_length = (Nat.digits 10 (shA.npix - 1)).length :=
  ⟨by decide, by decide, C3_padding_width 1 2 wlA shA (by decide) (by decide)⟩

/-- C4: the off-by-one in the invalid-index guard.  The source rejects a
decrypted index idx only when idx > npix, so the out-of-range index
idx = npix (one past the largest valid cell index npix - 1) is accepted
and handed on to pix2ang instead of raising InvalidHEALPixIndexError.
Evaluation at the failing input: on the codec mkStarHash 1 2 wlA
(npix = 12) with the decrypt swap12 (a self-inverse bijection of the
two-digit decimal strings), the identifier ["w0", "w0"] recomposes to 0,
decrypts to 12 = npix, and decode returns it as a success. -/
theorem C4_guard_accepts_npix :
    shA.npix = 12 ∧
    (∀ x, x < 10 ^ 2 → swap12 x < 10 ^ 2) ∧
    (∀ x, x < 10 ^ 2 → swap12 (swap12 x) = x) ∧
    words_to_coordinate shA swap12 ["w0", "w0"] = .ok 12 ∧
    words_to_coordinate shA (fun e => 13 + 0 * e) ["w0", "w0"] =
      .error .invalidHEALPixIndex := by decide

/-- C5, counterexample to the claim as stated.  On the codec
mkStarHash 1 2 wlA (padding width 2, so 10 ^ W = 100), the four-word
input ["w3", "w3", "w3", "w3"] recomposes to 255 ≥ 100, yet
words_to_coordinate raises no error before decryption: with the decrypt
dec255 (which sends 255 to 5) it completes successfully — the source
has no MalformedIdentifierError and performs no width check (zfill
never truncates). -/
theorem C5_counterexample :
    10 ^ 2 ≤ recompose shA.num_words [3, 3, 3, 3] ∧
    lookupIndices shA.wordlist ["w3", "w3", "w3", "w3"] = .ok [3, 3, 3, 3] ∧
    words_to_coordinate shA dec255 ["w3", "w3", "w3", "w3"] = .ok 5 := by decide

/-- C5 (amended): words_to_coordinate performs no width check on the
recomposed integer e.  Even when e ≥ 10 ^ padding_length — the case the
claim says is rejected with MalformedIdentifierError before decryption —
the value is zero-padded without truncation, handed to decrypt, and the
call completes normally whenever the decrypted index passes the range
guard; the source defines no MalformedIdentifierError at all, its only
decode-time failures being the unknown-word ValueError and
InvalidHEALPixIndexError. -/
theorem C5_no_width_check (sh : StarHash) (dec : ℕ → ℕ)
    (ws : List String) (inds : List ℕ)
    (hlk : lookupIndices sh.wordlist ws = .ok inds)
    (hbig : 10 ^ sh.padding_length ≤ recompose sh.num_words inds)
    (hidx : dec (recompose sh.num_words inds) ≤ sh.npix) :
    words_to_coordinate sh dec ws = .ok (dec (recompose sh.num_words inds)) := by
  simp only [words_to_coordinate, hlk, if_neg (not_lt.mpr hidx)]

/-- Witness for C5 at the codec mkStarHash 1 2 wlA, the oversized
recomposed value 255 ≥ 100 = 10 ^ padding_length, and the decrypt
dec255. -/
theorem C5_no_width_check_witness :
    lookupIndices shA.wordlist ["w3", "w3", "w3", "w3"] = .ok [3, 3, 3, 3] ∧
    10 ^ shA.padding_length ≤ recompose shA.num_words [3, 3, 3, 3] ∧
    dec255 (recompose shA.num_words [3, 3, 3, 3]) ≤ shA.npix ∧
    words_to_coordinate shA dec255 ["w3", "w3", "w3", "w3"] =
      .ok (dec255 (recompose shA.num_words [3, 3, 3, 3])) := by
  have hpad : 10 ^ shA.padding_length ≤ recompose shA.num_words [3, 3, 3, 3] := by
    have h2 : shA.padding_length = 2 := by
      show decimalLen 12 = 2
      simp [decimalLen]
    rw [h2]
    decide
  exact ⟨by decide, hpad,
    by decide, C5_no_width_check shA dec255 ["w3", "w3", "w3", "w3"]
      [3, 3, 3, 3] (by decide) hpad (by decide)⟩

/-- C6, counterexample to the claim as stated.  The source defines no
UnknownWordError class: the word "zzz", absent from the vocabulary of
the codec mkStarHash 1 2 wlA, makes decode fail with the generic
Python ValueError raised by list.index (modelled by the valueError
constructor, which is not a dedicated exception type of the source). -/
theorem C6_counterexample :
    words_to_coordinate shA id ["w0", "zzz"] =
      .error (.valueError ("zzz")) := by decide

/-- C6 (amended): for any input containing a word absent from the
vocabulary, words_to_coordinate fails with the generic ValueError
raised by Python's list.index — whose message does name the offending
word (the first absent one, in left-to-right order) — rather than with
a dedicated UnknownWordError, which the source does not define. -/
theorem C6_unknown_word_generic (sh : StarHash) (dec : ℕ → ℕ)
    (ws : List String) (h : ∃ w ∈ ws, w ∉ sh.wordlist) :
    ∃ w ∈ ws, w ∉ sh.wordlist ∧
      words_to_coordinate sh dec ws = .error (.valueError w) := by
  obtain ⟨w, hw, hwn, hlk⟩ := lookupIndices_missing sh.wordlist ws h
  exact ⟨w, hw, hwn, by simp [words_to_coordinate, hlk]⟩

/-- Witness for C6 at the codec mkStarHash 1 2 wlA and the input
["w0", "zzz"] containing the unknown word "zzz". -/
theorem C6_unknown_word_generic_witness :
    ∃ w ∈ (["w0", "zzz"] : List String), w ∉ shA.wordlist ∧
      words_to_coordinate shA id ["w0", "zzz"] = .error (.valueError w) :=
  C6_unknown_word_generic shA id ["w0", "zzz"] ⟨"zzz", by decide, by decide⟩

/-- C7: construction coverage failure.  For every positive grid
resolution, constructing a codec fails with
IncompleteHEALPixCoverageError exactly when num_words ^ k_words < npix
(no usable instance is returned in that case, the result being an
error), and the source's test coverage < 1 — the coverage factor taken
as an exact rational — is equivalent to that inequality. -/
theorem C7_coverage_failure (nside k : ℕ) (wl : List String) (hn : 0 < nside) :
    (mkStarHash nside k wl = .error .incompleteHEALPixCoverage ↔
      wl.length ^ k < nside2npix nside) ∧
    (coverage wl.length k (nside2npix nside) < 1 ↔
      wl.length ^ k < nside2npix nside) := by
  have hpos : 0 < nside2npix nside :=
    lt_of_lt_of_le (by norm_num) (nside2npix_ge_12 nside hn)
  constructor
  · exact mkStarHash_error_iff nside k wl
  · rw [← coverageBelow1_iff wl.length k (nside2npix nside) hpos]
    unfold coverageBelow1
    rw [decide_eq_true_eq]

/-- Witness for C7: one word and one word per identifier cannot cover
the twelve cells of the coarsest grid, and construction errors out. -/
theorem C7_coverage_failure_witness :
    mkStarHash 1 1 ["w0"] = .error .incompleteHEALPixCoverage :=
  (C7_coverage_failure 1 1 ["w0"] (by decide)).1.mpr (by decide)

/-- C8, counterexample to the claim as stated.  load_wordlist performs
no uniqueness verification and the source defines no
VocabularyDuplicateError: the vocabulary wlDup, which contains the word
"w0" twice, constructs a codec successfully. -/
theorem C8_counterexample :
    ¬ wlDup.Nodup ∧
    mkStarHash 1 2 wlDup =
      .ok { healpix_nside := 1, npix := 12, k_words := 2,
            wordlist := wlDup } := by decide

/-- C8 (amended): construction does not verify vocabulary uniqueness.
Whether or not the word list contains duplicates, construction succeeds
exactly when the coverage invariant num_words ^ k_words ≥ npix holds —
the coverage test of load_wordlist is the only check performed on the
loaded vocabulary. -/
theorem C8_no_duplicate_check (nside k : ℕ) (wl : List String) :
    mkStarHash nside k wl =
        .ok { healpix_nside := nside, npix := nside2npix nside,
              k_words := k, wordlist := wl } ↔
      nside2npix nside ≤ wl.length ^ k := by
  constructor
  · intro h
    exact (mkStarHash_ok_inv nside k wl _ h).2
  · intro h
    exact mkStarHash_ok nside k wl h

/-- Witness for C8 at the duplicated vocabulary wlDup: coverage holds
(4 ^ 2 ≥ 12) and construction succeeds despite the duplicate. -/
theorem C8_no_duplicate_check_witness :
    ¬ wlDup.Nodup ∧
    mkStarHash 1 2 wlDup =
      .ok { healpix_nside := 1, npix := nside2npix 1, k_words := 2,
            wordlist := wlDup } :=
  ⟨by decide, (C8_no_duplicate_check 1 2 wlDup).mpr (by decide)⟩

/-- C9: encode is total and safe after successful construction.  On any
successfully constructed codec the vocabulary is nonempty (the coverage
check forces num_words ^ k_words ≥ npix ≥ 12), so the word loop's
modulo and floor division never divide by zero, every vocabulary access
wordlist[temp % num_words] is in bounds, and encoding any cell index
under any encrypt function produces exactly k_words words. -/
theorem C9_encode_total (nside k : ℕ) (wl : List String) (sh : StarHash)
    (hn : 0 < nside) (hmk : mkStarHash nside k wl = .ok sh)
    (enc : ℕ → ℕ) (i : ℕ) :
    1 ≤ sh.num_words ∧
    ∃ ws, coordinate_to_words sh enc i = some ws ∧ ws.length = sh.k_words := by
  obtain ⟨hsh, hcov⟩ := mkStarHash_ok_inv nside k wl sh hmk
  subst hsh
  have h12 : 12 ≤ nside2npix nside := nside2npix_ge_12 nside hn
  have hN : 1 ≤ wl.length := by
    by_contra h
    have hl0 : wl.length = 0 := by omega
    rw [hl0] at hcov
    rcases Nat.eq_zero_or_pos k with hk | hk
    · rw [hk, pow_zero] at hcov
      omega
    · rw [zero_pow (by omega)] at hcov
      omega
  have hne : wl ≠ [] := by
    intro h
    rw [h] at hN
    simp at hN
  obtain ⟨ws, hws, hlen⟩ := wordLoop_total wl hne k (enc i)
  exact ⟨hN, ws, hws, hlen⟩

/-- Witness for C9 at the codec mkStarHash 1 2 wlA, the identity
encrypt and cell index 7. -/
theorem C9_encode_total_witness :
    1 ≤ shA.num_words ∧
    ∃ ws, coordinate_to_words shA id 7 = some ws ∧ ws.length = shA.k_words :=
  C9_encode_total 1 2 wlA shA (by decide) (by decide) id 7

/-- C10: decode does not validate the word count.  A single-word input
[w] — one word rather than the configured k_words — is processed without
any word-count error: its lone digit d is recomposed exactly as if all
higher-order digits were zero (recompose of [d] equals recompose of d
followed by k_words - 1 zero digits), and the call completes
successfully whenever the decrypted value passes the range guard. -/
theorem C10_no_word_count_check (sh : StarHash) (dec : ℕ → ℕ)
    (w : String) (d : ℕ)
    (hw : listIndex sh.wordlist w = .ok d)
    (hk : sh.k_words ≠ 1)
    (hidx : dec d ≤ sh.npix) :
    words_to_coordinate sh dec [w] = .ok (dec d) ∧
    recompose sh.num_words [d] =
      recompose sh.num_words (d :: List.replicate (sh.k_words - 1) 0) ∧
    ([w] : List String).length ≠ sh.k_words := by
  refine ⟨?_, ?_, ?_⟩
  · have hlk : lookupIndices sh.wordlist [w] = .ok [d] := by
      simp [lookupIndices, hw, Except.map]
    have hrec : recompose sh.num_words [d] = d := recompose_single _ d
    simp only [words_to_coordinate, hlk, hrec, if_neg (not_lt.mpr hidx)]
  · rw [recompose_single, recompose_cons, recompose_replicate_zero,
      mul_zero, add_zero]
  · simpa using fun h => hk h.symm

/-- Witness for C10 at the codec mkStarHash 1 2 wlA (k_words = 2), the
identity decrypt and the single-word input ["w1"]. -/
theorem C10_no_word_count_check_witness :
    words_to_coordinate shA id ["w1"] = .ok (id 1) ∧
    recompose shA.num_words [1] =
      recompose shA.num_words (1 :: List.replicate (shA.k_words - 1) 0) ∧
    (["w1"] : List String).length ≠ shA.k_words :=
  C10_no_word_count_check shA id ("w1") 1 (by decide) (by decide) (by decide)

end Starhash
